import Mathlib

/-!
Shallow embedding of `src/dingo/pulp_based_impl.py` (functions `fba`, `fva`,
`inner_ball`, `set_model`, `remove_redundant_facets`) over exact rationals.

The external PuLP/HiGHS solver is modelled as an abstract LP oracle: a total
function from an LP description to `Option ℚ` (the optimal value of the
minimisation problem, or `none` for any non-optimal status).  Floating-point
numbers of the source are modelled as rationals; `sys.float_info.max` is the
exact value of the largest double, and the tolerances `1e-6`, `1e-7` are the
corresponding rationals.  In-place mutation of the Python arrays `lb`, `ub`
is modelled by threading the bound vectors through an explicit state record.
-/

namespace Dingo

/-- Vectors are total maps from coordinate indices to rationals
(Python numpy 1-d arrays). -/
abbrev Vec := ℕ → ℚ

/-- `tol = 1e-06` of the source. -/
def tol : ℚ := 1 / 1000000

/-- `redundant_facet_tol = 1e-07` of the source. -/
def redundant_facet_tol : ℚ := 1 / 10000000

/-- `sys.float_info.max`, the largest IEEE-754 double, exactly. -/
def FMAX : ℚ := (2 ^ 53 - 1) * 2 ^ 971

/-- Standard basis row `A[i]` of the box-constraint matrix `A = [I; -I]`. -/
def eVec (i : ℕ) : Vec := fun j => if j = i then 1 else 0

/-- Row `A[n+i] = -e_i` of the box-constraint matrix. -/
def negE (i : ℕ) : Vec := fun j => if j = i then -1 else 0

/-- `S.shape[1]`: the number of columns of a row-major matrix. -/
def cols (S : List (List ℚ)) : ℕ := (S.headD []).length

/-- The LP solved by `fba`: `max c·v` subject to `Sv = 0`, `lb ≤ v ≤ ub`. -/
structure FbaLP where
  lb : List ℚ
  ub : List ℚ
  S : List (List ℚ)
  c : List ℚ

/-- Embedding of `fba` (lines 24-80).  The oracle returns the optimal point
and value of the maximisation problem, or `none` for a non-optimal status.
The pre-initialised defaults `optimum_value = 0`, `optimum_sol = np.zeros(n)`
are returned when the status is not optimal. -/
def fba (lb ub : List ℚ) (S : List (List ℚ)) (c : List ℚ)
    (oracle : FbaLP → Option (Vec × ℚ)) : Except String (Vec × ℚ) :=
  if lb.length ≠ cols S ∨ ub.length ≠ cols S then
    Except.error "The number of reactions must be equal to the number of given flux bounds."
  else if c.length ≠ cols S then
    Except.error "The length of the lineart objective function must be equal to the number of reactions."
  else
    match oracle ⟨lb, ub, S, c⟩ with
    | some pr => Except.ok pr
    | none => Except.ok (fun _ => 0, 0)

/-- `adjusted_opt_threshold` of `fva` (lines 115-117):
`(opt_percentage / 100) * tol * math.floor(max_biomass_objective / tol)`. -/
def fvaThreshold (maxBiomassObjective optPercentage : ℚ) : ℚ :=
  optPercentage / 100 * tol * (⌊maxBiomassObjective / tol⌋ : ℚ)

/-- A per-coordinate LP of `fva`: minimise `obj·v` subject to `Sv = 0`,
`c·v ≥ geqRhs`, `lb ≤ v ≤ ub`. -/
structure FvaLP where
  obj : Vec
  S : List (List ℚ)
  c : Vec
  geqRhs : ℚ
  lb : List ℚ
  ub : List ℚ

/-- Embedding of `fva` (lines 83-178).  Per coordinate, the min (resp. max)
solve falls back to `lb[i]` (resp. `ub[i]`) on a non-optimal status; the max
is recovered as the negation of the minimised objective `-v_i`. -/
def fva (lb ub : List ℚ) (S : List (List ℚ)) (c : List ℚ) (optPercentage : ℚ)
    (fbaOracle : FbaLP → Option (Vec × ℚ)) (oracle : FvaLP → Option ℚ) :
    Except String (List ℚ × List ℚ × Vec × ℚ) :=
  if lb.length ≠ cols S ∨ ub.length ≠ cols S then
    Except.error "The number of reactions must be equal to the number of given flux bounds."
  else
    (fba lb ub S c fbaOracle).map fun pr =>
      let θ := fvaThreshold pr.2 optPercentage
      let cF : Vec := fun j => c.getD j 0
      let n := cols S
      let minFluxes := (List.range n).map fun i =>
        match oracle ⟨eVec i, S, cF, θ, lb, ub⟩ with
        | some z => z
        | none => lb.getD i 0
      let maxFluxes := (List.range n).map fun i =>
        match oracle ⟨negE i, S, cF, θ, lb, ub⟩ with
        | some z => -z
        | none => ub.getD i 0
      (minFluxes, maxFluxes, pr.1, pr.2)

/-- Embedding of `inner_ball` (lines 181-231).  The oracle stands for the
construction and solution of the Chebyshev-ball LP on the norm-extended
matrix (row norms are irrational, so the model construction is folded into
the abstract solver); it returns the variable assignment, whose entry `n`
is the radius.  A negative radius yields `none` (the Python function prints
a diagnostic and falls off the end, returning `None`). -/
def inner_ball (A : List (List ℚ)) (b : List ℚ)
    (oracle : List (List ℚ) → List ℚ → Vec) : Option (List ℚ × ℚ) :=
  let n := cols A
  let x := oracle A b
  let point := (List.range n).map x
  let r := x n
  if r < 0 then none else some (point, r)

/-- An LP handed to the solver inside `remove_redundant_facets`: minimise
`obj·v` subject to `Aeq v = beq`, `A v ≤ b`, `lb ≤ v ≤ ub`.  Mirrors
`set_model` (lines 234-256) plus the objective assignment. -/
structure LPDescr where
  lb : Vec
  ub : Vec
  Aeq : List Vec
  beq : List ℚ
  A : List Vec
  b : List ℚ
  obj : Vec

/-- `set_model` (lines 234-256), fused with the subsequent objective
assignment `model_iter.objective = ...`. -/
def set_model (lb ub : Vec) (Aeq : List Vec) (beq : List ℚ)
    (A : List Vec) (b : List ℚ) (obj : Vec) : LPDescr :=
  ⟨lb, ub, Aeq, beq, A, b, obj⟩

/-- `val` of `remove_redundant_facets` (line 302):
`-np.floor(max_biomass_objective / tol) * tol * opt_percentage / 100`. -/
def rrfVal (maxBiomassObjective optPercentage : ℚ) : ℚ :=
  -(⌊maxBiomassObjective / tol⌋ : ℚ) * tol * optPercentage / 100

/-- Per-call context of the reducer: the abstract LP oracle, the cutoff row
`-c` with right-hand side `val`, the original bounds (from which the vector
`b` of line 291 is read), and the per-pass snapshot `Aeq`, `beq`
(lines 322-323) from which the model of line 328 is built. -/
structure Ctx where
  oracle : LPDescr → Option ℚ
  negc : Vec
  val : ℚ
  lb0 : Vec
  ub0 : Vec
  Aeq : List Vec
  beq : List ℚ

/-- The mutable state of `remove_redundant_facets`: working bounds, the
per-coordinate removal flags, the per-pass counters, the list of still
undecided coordinates, and the accumulated result rows. -/
structure St where
  lb : Vec
  ub : Vec
  fleft : ℕ → Bool
  fright : ℕ → Bool
  removed : ℕ
  offset : ℕ
  indices : List ℕ
  Aeq_res : List Vec
  beq_res : List ℚ
  A_res : List Vec
  b_res : List ℚ

/-- Lines 339-350: solve `min (-v_i)` with the current bounds and recover
`max_objective = -value`, falling back to `ub[i]` on a non-optimal status. -/
def computeMax (ctx : Ctx) (lb ub : Vec) (i : ℕ) : ℚ :=
  match ctx.oracle (set_model lb ub ctx.Aeq ctx.beq [ctx.negc] [ctx.val] (negE i)) with
  | some z => -z
  | none => ub i

/-- Lines 372-382: solve `min v_i` and recover `min_objective`, falling back
to `lb[i]` on a non-optimal status. -/
def computeMin (ctx : Ctx) (lb ub : Vec) (i : ℕ) : ℚ :=
  match ctx.oracle (set_model lb ub ctx.Aeq ctx.beq [ctx.negc] [ctx.val] (eVec i)) with
  | some z => z
  | none => lb i

/-- Lines 352-370: if the right facet of `i` is not yet removed, re-solve
with `ub[i]` relaxed by `+1`; classify and flag.  Returns
`(redundant_facet_right, facet_right_removed, removed)`. -/
def rightCheck (ctx : Ctx) (lb ub : Vec) (fright : ℕ → Bool) (removed i : ℕ)
    (maxObjective : ℚ) : Bool × (ℕ → Bool) × ℕ :=
  if fright i = true then (true, fright, removed)
  else
    match ctx.oracle (set_model lb (Function.update ub i (ub i + 1))
        ctx.Aeq ctx.beq [ctx.negc] [ctx.val] (negE i)) with
    | some z2 =>
        if redundant_facet_tol < |(-z2) - maxObjective| then (false, fright, removed)
        else (true, Function.update fright i true, removed + 1)
    | none => (true, fright, removed)

/-- Lines 384-405: the symmetric test for the left facet with `lb[i]`
relaxed by `-1`. -/
def leftCheck (ctx : Ctx) (lb ub : Vec) (fleft : ℕ → Bool) (removed i : ℕ)
    (minObjective : ℚ) : Bool × (ℕ → Bool) × ℕ :=
  if fleft i = true then (true, fleft, removed)
  else
    match ctx.oracle (set_model (Function.update lb i (lb i - 1)) ub
        ctx.Aeq ctx.beq [ctx.negc] [ctx.val] (eVec i)) with
    | some z2 =>
        if redundant_facet_tol < |z2 - minObjective| then (false, fleft, removed)
        else (true, Function.update fleft i true, removed + 1)
    | none => (true, fleft, removed)

/-- Lines 407-438: dispatch on the two redundancy verdicts: convert the
coordinate to an equality when its width is below tolerance, keep it active
emitting one inequality row per non-redundant side, or drop it when both
sides are redundant. -/
def finishCoord (ctx : Ctx) (s : St) (i : ℕ) (redL redR : Bool)
    (maxObjective minObjective : ℚ) : St :=
  if redL = false ∨ redR = false then
    if |maxObjective - minObjective| < redundant_facet_tol then
      { s with
        offset := s.offset + 1
        Aeq_res := s.Aeq_res ++ [eVec i]
        beq_res := s.beq_res ++ [min maxObjective minObjective]
        ub := Function.update s.ub i FMAX
        lb := Function.update s.lb i (-FMAX) }
    else
      { s with
        indices := s.indices ++ [i]
        A_res := s.A_res ++ (if redL = false then [negE i] else [])
                         ++ (if redR = false then [eVec i] else [])
        b_res := s.b_res ++ (if redL = false then [-(ctx.lb0 i)] else [])
                         ++ (if redR = false then [ctx.ub0 i] else [])
        lb := if redL = false then s.lb else Function.update s.lb i (-FMAX)
        ub := if redR = false then s.ub else Function.update s.ub i FMAX }
  else
    { s with
      ub := Function.update s.ub i FMAX
      lb := Function.update s.lb i (-FMAX) }

/-- The body of `for i in indices` (lines 330-438). -/
def procIndex (ctx : Ctx) (s : St) (i : ℕ) : St :=
  let maxObjective := computeMax ctx s.lb s.ub i
  let rc := rightCheck ctx s.lb s.ub s.fright s.removed i maxObjective
  let minObjective := computeMin ctx s.lb s.ub i
  let lc := leftCheck ctx s.lb s.ub s.fleft rc.2.2 i minObjective
  finishCoord ctx { s with fright := rc.2.1, fleft := lc.2.1, removed := lc.2.2 }
    i lc.1 rc.1 maxObjective minObjective

/-- One pass of the `while` loop (lines 316-438): reset the counters and the
inequality accumulator, snapshot `Aeq`, `beq` into the model context, and
process every still-undecided coordinate. -/
def runPass (p : Ctx) (st : St) : St :=
  List.foldl (procIndex { p with Aeq := st.Aeq_res, beq := st.beq_res })
    { st with removed := 0, offset := 0, indices := [], A_res := [], b_res := [] }
    st.indices

/-- The `while removed > 0 or offset > 0` loop, run on explicit fuel; the
loop exits as soon as a pass yields `removed == 0 and offset == 0`. -/
def loopFuel (p : Ctx) : ℕ → St → St
  | 0, st => st
  | fuel + 1, st =>
      if st.removed = 0 ∧ st.offset = 0 then st else loopFuel p fuel (runPass p st)

/-- Initial state (lines 287-313): fresh flags, counters at 1, all
coordinates undecided, `Aeq_res = S`, `beq_res = 0`. -/
def initSt (lb ub : List ℚ) (S : List (List ℚ)) (n : ℕ) : St where
  lb := fun i => lb.getD i 0
  ub := fun i => ub.getD i 0
  fleft := fun _ => false
  fright := fun _ => false
  removed := 1
  offset := 1
  indices := List.range n
  Aeq_res := S.map fun row => fun j => row.getD j 0
  beq_res := List.replicate S.length 0
  A_res := []
  b_res := []

/-- The fixed part of the reducer's context (line 328's `[-c]`, `[val]`, and
the original bounds feeding the `b` vector of line 291). -/
def mkParams (lb ub c : List ℚ) (optPercentage : ℚ) (oracle : LPDescr → Option ℚ)
    (maxBiomassObjective : ℚ) : Ctx where
  oracle := oracle
  negc := fun j => -(c.getD j 0)
  val := rrfVal maxBiomassObjective optPercentage
  lb0 := fun i => lb.getD i 0
  ub0 := fun i => ub.getD i 0
  Aeq := []
  beq := []

/-- `remove_redundant_facets` up to (but not including) the final projection
to the four returned arrays: dimension check, the initial `fba` solve, and
the facet-elimination loop.  The fuel `3n+1` is proved sufficient below. -/
def rrfFinalState (lb ub : List ℚ) (S : List (List ℚ)) (c : List ℚ)
    (optPercentage : ℚ) (fbaOracle : FbaLP → Option (Vec × ℚ))
    (oracle : LPDescr → Option ℚ) : Except String St :=
  if lb.length ≠ cols S ∨ ub.length ≠ cols S then
    Except.error "The number of reactions must be equal to the number of given flux bounds."
  else
    (fba lb ub S c fbaOracle).map fun pr =>
      loopFuel (mkParams lb ub c optPercentage oracle pr.2) (3 * cols S + 1)
        (initSt lb ub S (cols S))

/-- Embedding of `remove_redundant_facets` (lines 259-449), returning
`(A_res, b_res, Aeq_res, beq_res)`. -/
def remove_redundant_facets (lb ub : List ℚ) (S : List (List ℚ)) (c : List ℚ)
    (optPercentage : ℚ) (fbaOracle : FbaLP → Option (Vec × ℚ))
    (oracle : LPDescr → Option ℚ) :
    Except String (List Vec × List ℚ × List Vec × List ℚ) :=
  (rrfFinalState lb ub S c optPercentage fbaOracle oracle).map fun st =>
    (st.A_res, st.b_res, st.Aeq_res, st.beq_res)

/-- Number of `false` entries of a flag vector among the first `n`
coordinates. -/
def cntF (n : ℕ) (f : ℕ → Bool) : ℕ :=
  ((Finset.range n).filter fun j => f j = false).card

/-- Count of unmarked facet sides: the termination budget of the loop. -/
def unsetCnt (n : ℕ) (st : St) : ℕ := cntF n st.fleft + cntF n st.fright

/-- Loop measure: unmarked sides plus undecided coordinates. -/
def measureSt (n : ℕ) (st : St) : ℕ := unsetCnt n st + st.indices.length

/-- `∑ j < n, a j * x j`: satisfaction of one inequality row. -/
def dotProd (a x : Vec) (n : ℕ) : ℚ := ∑ j ∈ Finset.range n, a j * x j

/-- Characterisation of one coordinate's working bounds in terms of its side
flags: a flagged side has been released to the float extreme, an unflagged
side still holds its original bound. -/
abbrev sideOK (lb0 ub0 : Vec) (s : St) (i : ℕ) : Prop :=
  (s.fright i = true → s.ub i = FMAX) ∧
  (s.fright i = false → s.ub i = ub0 i) ∧
  (s.fleft i = true → s.lb i = -FMAX) ∧
  (s.fleft i = false → s.lb i = lb0 i)

/-- A coordinate dropped from the undecided set has both bounds released. -/
abbrev droppedOK (s : St) (i : ℕ) : Prop := s.ub i = FMAX ∧ s.lb i = -FMAX

/-- A small concrete context used to instantiate theorems on explicit data. -/
def ctxW : Ctx := ⟨fun _ => none, fun _ => 0, 0, fun _ => 2, fun _ => 3, [], []⟩

/-- A small concrete reducer state used to instantiate theorems. -/
def stW : St := ⟨fun _ => 0, fun _ => 1, fun _ => false, fun _ => false, 0, 0, [], [], [], [], []⟩

/-- A concrete reducer state with both side flags set and no undecided
coordinate. -/
def stW2 : St := ⟨fun _ => 0, fun _ => 1, fun _ => true, fun _ => true, 0, 0, [], [], [], [], []⟩

/-! ### Case analyses of the per-coordinate steps -/

theorem rightCheck_cases (ctx : Ctx) (lb ub : Vec) (f : ℕ → Bool) (r i : ℕ) (mo : ℚ) :
    rightCheck ctx lb ub f r i mo = (true, f, r) ∨
    rightCheck ctx lb ub f r i mo = (false, f, r) ∨
    (f i = false ∧ rightCheck ctx lb ub f r i mo = (true, Function.update f i true, r + 1)) := by
  unfold rightCheck
  by_cases h : f i = true
  · rw [if_pos h]; exact Or.inl rfl
  · have hf : f i = false := by simpa using h
    rw [if_neg h]
    rcases hoc : ctx.oracle (set_model lb (Function.update ub i (ub i + 1))
        ctx.Aeq ctx.beq [ctx.negc] [ctx.val] (negE i)) with _ | z2
    · exact Or.inl rfl
    · dsimp only
      by_cases hg : redundant_facet_tol < |(-z2) - mo|
      · rw [if_pos hg]; exact Or.inr (Or.inl rfl)
      · rw [if_neg hg]; exact Or.inr (Or.inr ⟨hf, rfl⟩)

theorem leftCheck_cases (ctx : Ctx) (lb ub : Vec) (f : ℕ → Bool) (r i : ℕ) (mo : ℚ) :
    leftCheck ctx lb ub f r i mo = (true, f, r) ∨
    leftCheck ctx lb ub f r i mo = (false, f, r) ∨
    (f i = false ∧ leftCheck ctx lb ub f r i mo = (true, Function.update f i true, r + 1)) := by
  unfold leftCheck
  by_cases h : f i = true
  · rw [if_pos h]; exact Or.inl rfl
  · have hf : f i = false := by simpa using h
    rw [if_neg h]
    rcases hoc : ctx.oracle (set_model (Function.update lb i (lb i - 1)) ub
        ctx.Aeq ctx.beq [ctx.negc] [ctx.val] (eVec i)) with _ | z2
    · exact Or.inl rfl
    · dsimp only
      by_cases hg : redundant_facet_tol < |z2 - mo|
      · rw [if_pos hg]; exact Or.inr (Or.inl rfl)
      · rw [if_neg hg]; exact Or.inr (Or.inr ⟨hf, rfl⟩)

theorem finishCoord_cases (ctx : Ctx) (s : St) (i : ℕ) (rl rr : Bool) (mo mi : ℚ) :
    (¬(rl = false ∨ rr = false) ∧
      finishCoord ctx s i rl rr mo mi =
        { s with ub := Function.update s.ub i FMAX, lb := Function.update s.lb i (-FMAX) }) ∨
    ((rl = false ∨ rr = false) ∧ |mo - mi| < redundant_facet_tol ∧
      finishCoord ctx s i rl rr mo mi =
        { s with
          offset := s.offset + 1
          Aeq_res := s.Aeq_res ++ [eVec i]
          beq_res := s.beq_res ++ [min mo mi]
          ub := Function.update s.ub i FMAX
          lb := Function.update s.lb i (-FMAX) }) ∨
    ((rl = false ∨ rr = false) ∧ ¬(|mo - mi| < redundant_facet_tol) ∧
      finishCoord ctx s i rl rr mo mi =
        { s with
          indices := s.indices ++ [i]
          A_res := s.A_res ++ (if rl = false then [negE i] else [])
                           ++ (if rr = false then [eVec i] else [])
          b_res := s.b_res ++ (if rl = false then [-(ctx.lb0 i)] else [])
                           ++ (if rr = false then [ctx.ub0 i] else [])
          lb := if rl = false then s.lb else Function.update s.lb i (-FMAX)
          ub := if rr = false then s.ub else Function.update s.ub i FMAX }) := by
  unfold finishCoord
  by_cases h1 : rl = false ∨ rr = false
  · rw [if_pos h1]
    by_cases h2 : |mo - mi| < redundant_facet_tol
    · rw [if_pos h2]; exact Or.inr (Or.inl ⟨h1, h2, rfl⟩)
    · rw [if_neg h2]; exact Or.inr (Or.inr ⟨h1, h2, rfl⟩)
  · rw [if_neg h1]; exact Or.inl ⟨h1, rfl⟩

theorem procIndex_eq (ctx : Ctx) (s : St) (i : ℕ) :
    procIndex ctx s i =
      finishCoord ctx
        { s with
          fright := (rightCheck ctx s.lb s.ub s.fright s.removed i
            (computeMax ctx s.lb s.ub i)).2.1
          fleft := (leftCheck ctx s.lb s.ub s.fleft
            (rightCheck ctx s.lb s.ub s.fright s.removed i
              (computeMax ctx s.lb s.ub i)).2.2 i (computeMin ctx s.lb s.ub i)).2.1
          removed := (leftCheck ctx s.lb s.ub s.fleft
            (rightCheck ctx s.lb s.ub s.fright s.removed i
              (computeMax ctx s.lb s.ub i)).2.2 i (computeMin ctx s.lb s.ub i)).2.2 }
        i
        (leftCheck ctx s.lb s.ub s.fleft
          (rightCheck ctx s.lb s.ub s.fright s.removed i
            (computeMax ctx s.lb s.ub i)).2.2 i (computeMin ctx s.lb s.ub i)).1
        (rightCheck ctx s.lb s.ub s.fright s.removed i (computeMax ctx s.lb s.ub i)).1
        (computeMax ctx s.lb s.ub i) (computeMin ctx s.lb s.ub i) := rfl

/-! ### Counting unmarked facet sides -/

theorem filter_update_erase (n : ℕ) (f : ℕ → Bool) (i : ℕ) :
    ((Finset.range n).filter fun j => Function.update f i true j = false) =
      ((Finset.range n).filter fun j => f j = false).erase i := by
  ext j
  simp only [Finset.mem_filter, Finset.mem_erase, Function.update_apply]
  constructor
  · rintro ⟨hj, hval⟩
    by_cases hji : j = i
    · rw [if_pos hji] at hval; exact absurd hval (by simp)
    · rw [if_neg hji] at hval; exact ⟨hji, hj, hval⟩
  · rintro ⟨hji, hj, hval⟩
    exact ⟨hj, by rw [if_neg hji]; exact hval⟩

theorem cntF_update_le (n : ℕ) (f : ℕ → Bool) (i : ℕ) :
    cntF n (Function.update f i true) ≤ cntF n f := by
  unfold cntF
  rw [filter_update_erase]
  exact Finset.card_erase_le

theorem cntF_update_lt (n : ℕ) (f : ℕ → Bool) (i : ℕ) (hi : i < n) (hf : f i = false) :
    cntF n (Function.update f i true) < cntF n f := by
  unfold cntF
  rw [filter_update_erase]
  exact Finset.card_erase_lt_of_mem (by simp [Finset.mem_filter, hi, hf])

/-! ### Shape of the two facet checks -/

theorem rightCheck_step (ctx : Ctx) (lb ub : Vec) (f : ℕ → Bool) (r i : ℕ) (mo : ℚ) :
    ((rightCheck ctx lb ub f r i mo).2.1 = f ∧ (rightCheck ctx lb ub f r i mo).2.2 = r) ∨
    (f i = false ∧ (rightCheck ctx lb ub f r i mo).2.1 = Function.update f i true ∧
      (rightCheck ctx lb ub f r i mo).2.2 = r + 1) := by
  rcases rightCheck_cases ctx lb ub f r i mo with h | h | ⟨hf, h⟩ <;> rw [h]
  · exact Or.inl ⟨rfl, rfl⟩
  · exact Or.inl ⟨rfl, rfl⟩
  · exact Or.inr ⟨hf, rfl, rfl⟩

theorem leftCheck_step (ctx : Ctx) (lb ub : Vec) (f : ℕ → Bool) (r i : ℕ) (mo : ℚ) :
    ((leftCheck ctx lb ub f r i mo).2.1 = f ∧ (leftCheck ctx lb ub f r i mo).2.2 = r) ∨
    (f i = false ∧ (leftCheck ctx lb ub f r i mo).2.1 = Function.update f i true ∧
      (leftCheck ctx lb ub f r i mo).2.2 = r + 1) := by
  rcases leftCheck_cases ctx lb ub f r i mo with h | h | ⟨hf, h⟩ <;> rw [h]
  · exact Or.inl ⟨rfl, rfl⟩
  · exact Or.inl ⟨rfl, rfl⟩
  · exact Or.inr ⟨hf, rfl, rfl⟩

theorem twoStep_cnt (n i : ℕ) (fL fR fL' fR' : ℕ → Bool) (r0 r1 r2 : ℕ)
    (hR : (fR' = fR ∧ r1 = r0) ∨
      (fR i = false ∧ fR' = Function.update fR i true ∧ r1 = r0 + 1))
    (hL : (fL' = fL ∧ r2 = r1) ∨
      (fL i = false ∧ fL' = Function.update fL i true ∧ r2 = r1 + 1)) :
    (∀ j, fL j = true → fL' j = true) ∧ (∀ j, fR j = true → fR' j = true) ∧
    r0 ≤ r2 ∧ cntF n fL' + cntF n fR' ≤ cntF n fL + cntF n fR ∧
    (i < n → r0 < r2 → cntF n fL' + cntF n fR' < cntF n fL + cntF n fR) := by
  have updMono : ∀ (f : ℕ → Bool) (j : ℕ), f j = true → Function.update f i true j = true := by
    intro f j hj
    rcases eq_or_ne j i with rfl | hne
    · simp
    · rwa [Function.update_noteq hne]
  rcases hR with ⟨hfR, hr1⟩ | ⟨hRi, hfR, hr1⟩ <;> rcases hL with ⟨hfL, hr2⟩ | ⟨hLi, hfL, hr2⟩ <;>
    subst hfR <;> subst hfL <;> subst hr1 <;> subst hr2
  · exact ⟨fun _ h => h, fun _ h => h, le_rfl, le_rfl, fun _ h => absurd h (lt_irrefl _)⟩
  · refine ⟨updMono fL, fun _ h => h, by omega, ?_, ?_⟩
    · have := cntF_update_le n fL i; omega
    · intro hi _; have := cntF_update_lt n fL i hi hLi; omega
  · refine ⟨fun _ h => h, updMono fR, by omega, ?_, ?_⟩
    · have := cntF_update_le n fR i; omega
    · intro hi _; have := cntF_update_lt n fR i hi hRi; omega
  · refine ⟨updMono fL, updMono fR, by omega, ?_, ?_⟩
    · have h1 := cntF_update_le n fL i; have h2 := cntF_update_le n fR i; omega
    · intro hi _
      have h1 := cntF_update_lt n fL i hi hLi
      have h2 := cntF_update_le n fR i
      omega

/-! ### Field behaviour of one coordinate step -/

theorem finishCoord_fleft (ctx : Ctx) (s : St) (i : ℕ) (rl rr : Bool) (mo mi : ℚ) :
    (finishCoord ctx s i rl rr mo mi).fleft = s.fleft := by
  rcases finishCoord_cases ctx s i rl rr mo mi with ⟨_, h⟩ | ⟨_, _, h⟩ | ⟨_, _, h⟩ <;> rw [h]

theorem finishCoord_fright (ctx : Ctx) (s : St) (i : ℕ) (rl rr : Bool) (mo mi : ℚ) :
    (finishCoord ctx s i rl rr mo mi).fright = s.fright := by
  rcases finishCoord_cases ctx s i rl rr mo mi with ⟨_, h⟩ | ⟨_, _, h⟩ | ⟨_, _, h⟩ <;> rw [h]

theorem finishCoord_removed (ctx : Ctx) (s : St) (i : ℕ) (rl rr : Bool) (mo mi : ℚ) :
    (finishCoord ctx s i rl rr mo mi).removed = s.removed := by
  rcases finishCoord_cases ctx s i rl rr mo mi with ⟨_, h⟩ | ⟨_, _, h⟩ | ⟨_, _, h⟩ <;> rw [h]

theorem finishCoord_struct (ctx : Ctx) (s : St) (i : ℕ) (rl rr : Bool) (mo mi : ℚ) :
    s.offset ≤ (finishCoord ctx s i rl rr mo mi).offset ∧
    ((finishCoord ctx s i rl rr mo mi).indices = s.indices ∨
      (finishCoord ctx s i rl rr mo mi).indices = s.indices ++ [i]) ∧
    (s.offset < (finishCoord ctx s i rl rr mo mi).offset →
      (finishCoord ctx s i rl rr mo mi).indices = s.indices) ∧
    (∃ u, (finishCoord ctx s i rl rr mo mi).beq_res = s.beq_res ++ u) ∧
    (∃ u, (finishCoord ctx s i rl rr mo mi).Aeq_res = s.Aeq_res ++ u) ∧
    (∀ r ∈ (finishCoord ctx s i rl rr mo mi).A_res,
      r ∈ s.A_res ∨ r = eVec i ∨ r = negE i) := by
  rcases finishCoord_cases ctx s i rl rr mo mi with ⟨_, h⟩ | ⟨_, _, h⟩ | ⟨_, _, h⟩ <;> rw [h]
  · exact ⟨le_rfl, Or.inl rfl, fun hc => absurd hc (lt_irrefl _), ⟨[], by simp⟩, ⟨[], by simp⟩,
      fun r hr => Or.inl hr⟩
  · exact ⟨Nat.le_succ _, Or.inl rfl, fun _ => rfl, ⟨[min mo mi], rfl⟩, ⟨[eVec i], rfl⟩,
      fun r hr => Or.inl hr⟩
  · refine ⟨le_rfl, Or.inr rfl, fun hc => absurd hc (lt_irrefl _), ⟨[], by simp⟩, ⟨[], by simp⟩, ?_⟩
    intro r hr
    rcases List.mem_append.mp hr with hr' | hr'
    · rcases List.mem_append.mp hr' with h0 | h0
      · exact Or.inl h0
      · right; right
        revert h0; split <;> simp
    · right; left
      revert hr'; split <;> simp

theorem procIndex_flags (ctx : Ctx) (n : ℕ) (s : St) (i : ℕ) :
    (∀ j, s.fleft j = true → (procIndex ctx s i).fleft j = true) ∧
    (∀ j, s.fright j = true → (procIndex ctx s i).fright j = true) ∧
    s.removed ≤ (procIndex ctx s i).removed ∧
    unsetCnt n (procIndex ctx s i) ≤ unsetCnt n s ∧
    (i < n → s.removed < (procIndex ctx s i).removed →
      unsetCnt n (procIndex ctx s i) < unsetCnt n s) := by
  have hR := rightCheck_step ctx s.lb s.ub s.fright s.removed i (computeMax ctx s.lb s.ub i)
  have hL := leftCheck_step ctx s.lb s.ub s.fleft
    (rightCheck ctx s.lb s.ub s.fright s.removed i (computeMax ctx s.lb s.ub i)).2.2 i
    (computeMin ctx s.lb s.ub i)
  have key := twoStep_cnt n i s.fleft s.fright _ _ s.removed _ _ hR hL
  have e1 : (procIndex ctx s i).fleft =
      (leftCheck ctx s.lb s.ub s.fleft
        (rightCheck ctx s.lb s.ub s.fright s.removed i (computeMax ctx s.lb s.ub i)).2.2 i
        (computeMin ctx s.lb s.ub i)).2.1 := by
    rw [procIndex_eq, finishCoord_fleft]
  have e2 : (procIndex ctx s i).fright =
      (rightCheck ctx s.lb s.ub s.fright s.removed i (computeMax ctx s.lb s.ub i)).2.1 := by
    rw [procIndex_eq, finishCoord_fright]
  have e3 : (procIndex ctx s i).removed =
      (leftCheck ctx s.lb s.ub s.fleft
        (rightCheck ctx s.lb s.ub s.fright s.removed i (computeMax ctx s.lb s.ub i)).2.2 i
        (computeMin ctx s.lb s.ub i)).2.2 := by
    rw [procIndex_eq, finishCoord_removed]
  simp only [unsetCnt, e1, e2, e3]
  exact key

theorem procIndex_struct (ctx : Ctx) (s : St) (i : ℕ) :
    s.offset ≤ (procIndex ctx s i).offset ∧
    ((procIndex ctx s i).indices = s.indices ∨
      (procIndex ctx s i).indices = s.indices ++ [i]) ∧
    (s.offset < (procIndex ctx s i).offset → (procIndex ctx s i).indices = s.indices) ∧
    (∃ u, (procIndex ctx s i).beq_res = s.beq_res ++ u) ∧
    (∃ u, (procIndex ctx s i).Aeq_res = s.Aeq_res ++ u) ∧
    (∀ r ∈ (procIndex ctx s i).A_res, r ∈ s.A_res ∨ r = eVec i ∨ r = negE i) := by
  rw [procIndex_eq]
  generalize computeMax ctx s.lb s.ub i = mo
  generalize computeMin ctx s.lb s.ub i = mi
  generalize rightCheck ctx s.lb s.ub s.fright s.removed i mo = rc
  generalize leftCheck ctx s.lb s.ub s.fleft rc.2.2 i mi = lc
  exact finishCoord_struct ctx
    { s with fright := rc.2.1, fleft := lc.2.1, removed := lc.2.2 } i lc.1 rc.1 mo mi

/-! ### Invariants of one pass (a fold over the undecided coordinates) -/

theorem foldl_spec (ctx : Ctx) (n : ℕ) (l : List ℕ) :
    ∀ s : St,
      (∀ j, s.fleft j = true → (List.foldl (procIndex ctx) s l).fleft j = true) ∧
      (∀ j, s.fright j = true → (List.foldl (procIndex ctx) s l).fright j = true) ∧
      s.removed ≤ (List.foldl (procIndex ctx) s l).removed ∧
      s.offset ≤ (List.foldl (procIndex ctx) s l).offset ∧
      (List.foldl (procIndex ctx) s l).indices.length ≤ s.indices.length + l.length ∧
      (s.offset < (List.foldl (procIndex ctx) s l).offset →
        (List.foldl (procIndex ctx) s l).indices.length < s.indices.length + l.length) ∧
      unsetCnt n (List.foldl (procIndex ctx) s l) ≤ unsetCnt n s ∧
      ((∀ j ∈ l, j < n) → s.removed < (List.foldl (procIndex ctx) s l).removed →
        unsetCnt n (List.foldl (procIndex ctx) s l) < unsetCnt n s) ∧
      (∀ j ∈ (List.foldl (procIndex ctx) s l).indices, j ∈ s.indices ∨ j ∈ l) ∧
      (∃ u, (List.foldl (procIndex ctx) s l).beq_res = s.beq_res ++ u) ∧
      (∃ u, (List.foldl (procIndex ctx) s l).Aeq_res = s.Aeq_res ++ u) ∧
      (∀ r ∈ (List.foldl (procIndex ctx) s l).A_res,
        r ∈ s.A_res ∨ ∃ j ∈ l, r = eVec j ∨ r = negE j) := by
  induction l with
  | nil =>
      intro s
      exact ⟨fun _ h => h, fun _ h => h, le_rfl, le_rfl, by simp,
        fun h => absurd h (lt_irrefl _), le_rfl, fun _ h => absurd h (lt_irrefl _),
        fun j hj => Or.inl hj, ⟨[], by simp⟩, ⟨[], by simp⟩, fun r hr => Or.inl hr⟩
  | cons i l ih =>
      intro s
      obtain ⟨A1, A2, A3, A4, A5⟩ := procIndex_flags ctx n s i
      obtain ⟨B1, B2, B3, B4, B5, B6⟩ := procIndex_struct ctx s i
      obtain ⟨F1, F2, F3, F4, F5, F6, F7, F8, F9, F10, F11, F12⟩ := ih (procIndex ctx s i)
      rw [List.foldl_cons]
      have hlen : (procIndex ctx s i).indices.length ≤ s.indices.length + 1 := by
        rcases B2 with h | h <;> rw [h] <;> simp
      refine ⟨fun j h => F1 j (A1 j h), fun j h => F2 j (A2 j h),
        le_trans A3 F3, le_trans B1 F4, ?_, ?_, le_trans F7 A4, ?_, ?_, ?_, ?_, ?_⟩
      · simp only [List.length_cons]
        omega
      · intro hoff
        simp only [List.length_cons]
        by_cases h : s.offset < (procIndex ctx s i).offset
        · have hind := B3 h
          rw [hind] at F5
          omega
        · have heq : (procIndex ctx s i).offset = s.offset := le_antisymm (by omega) B1
          rw [heq] at F6
          have := F6 hoff
          omega
      · intro hl hrem
        by_cases h : s.removed < (procIndex ctx s i).removed
        · exact lt_of_le_of_lt F7 (A5 (hl i (List.mem_cons_self i l)) h)
        · have heq : (procIndex ctx s i).removed = s.removed := le_antisymm (by omega) A3
          rw [heq] at F8
          exact lt_of_lt_of_le (F8 (fun j hj => hl j (List.mem_cons_of_mem i hj)) hrem) A4
      · intro j hj
        rcases F9 j hj with h | h
        · rcases B2 with hB | hB
          · rw [hB] at h; exact Or.inl h
          · rw [hB] at h
            rcases List.mem_append.mp h with h' | h'
            · exact Or.inl h'
            · simp only [List.mem_singleton] at h'
              exact Or.inr (h' ▸ List.mem_cons_self i l)
        · exact Or.inr (List.mem_cons_of_mem i h)
      · obtain ⟨u, hu⟩ := B4
        obtain ⟨v, hv⟩ := F10
        exact ⟨u ++ v, by rw [hv, hu, List.append_assoc]⟩
      · obtain ⟨u, hu⟩ := B5
        obtain ⟨v, hv⟩ := F11
        exact ⟨u ++ v, by rw [hv, hu, List.append_assoc]⟩
      · intro r hr
        rcases F12 r hr with h | ⟨j, hj, h⟩
        · rcases B6 r h with h' | h'
          · exact Or.inl h'
          · exact Or.inr ⟨i, List.mem_cons_self i l, h'⟩
        · exact Or.inr ⟨j, List.mem_cons_of_mem i hj, h⟩

theorem runPass_spec (p : Ctx) (n : ℕ) (st : St) :
    (∀ j, st.fleft j = true → (runPass p st).fleft j = true) ∧
    (∀ j, st.fright j = true → (runPass p st).fright j = true) ∧
    ((∀ j ∈ st.indices, j < n) → measureSt n (runPass p st) ≤ measureSt n st) ∧
    ((∀ j ∈ st.indices, j < n) →
      ¬((runPass p st).removed = 0 ∧ (runPass p st).offset = 0) →
      measureSt n (runPass p st) < measureSt n st) ∧
    (∀ j ∈ (runPass p st).indices, j ∈ st.indices) ∧
    (∃ u, (runPass p st).beq_res = st.beq_res ++ u) ∧
    (∃ u, (runPass p st).Aeq_res = st.Aeq_res ++ u) ∧
    (∀ r ∈ (runPass p st).A_res, ∃ j ∈ st.indices, r = eVec j ∨ r = negE j) := by
  unfold runPass
  obtain ⟨F1, F2, F3, F4, F5, F6, F7, F8, F9, F10, F11, F12⟩ :=
    foldl_spec { p with Aeq := st.Aeq_res, beq := st.beq_res } n st.indices
      { st with removed := 0, offset := 0, indices := [], A_res := [], b_res := [] }
  have e1 : ({ st with removed := 0, offset := 0, indices := [], A_res := [], b_res := [] } : St).indices = [] := rfl
  have e2 : unsetCnt n { st with removed := 0, offset := 0, indices := [], A_res := [], b_res := [] } = unsetCnt n st := rfl
  have e3 : ({ st with removed := 0, offset := 0, indices := [], A_res := [], b_res := [] } : St).removed = 0 := rfl
  have e4 : ({ st with removed := 0, offset := 0, indices := [], A_res := [], b_res := [] } : St).offset = 0 := rfl
  have e5 : ({ st with removed := 0, offset := 0, indices := [], A_res := [], b_res := [] } : St).beq_res = st.beq_res := rfl
  have e6 : ({ st with removed := 0, offset := 0, indices := [], A_res := [], b_res := [] } : St).Aeq_res = st.Aeq_res := rfl
  have e7 : ({ st with removed := 0, offset := 0, indices := [], A_res := [], b_res := [] } : St).A_res = [] := rfl
  rw [e1] at F5 F6 F9
  rw [e2] at F7 F8
  rw [e3] at F8
  rw [e4] at F6
  rw [e5] at F10
  rw [e6] at F11
  rw [e7] at F12
  simp only [List.length_nil, Nat.zero_add] at F5 F6
  refine ⟨F1, F2, ?_, ?_, ?_, F10, F11, ?_⟩
  · intro hwf
    unfold measureSt
    omega
  · intro hwf hnd
    unfold measureSt
    by_cases hr0 : (List.foldl
        (procIndex { p with Aeq := st.Aeq_res, beq := st.beq_res })
        { st with removed := 0, offset := 0, indices := [], A_res := [], b_res := [] }
        st.indices).removed = 0
    · have hoff : 0 < (List.foldl
          (procIndex { p with Aeq := st.Aeq_res, beq := st.beq_res })
          { st with removed := 0, offset := 0, indices := [], A_res := [], b_res := [] }
          st.indices).offset := by
        rcases Nat.eq_zero_or_pos _ with h | h
        · exact absurd ⟨hr0, h⟩ hnd
        · exact h
      have := F6 hoff
      omega
    · have := F8 hwf (Nat.pos_of_ne_zero hr0)
      omega
  · intro j hj
    rcases F9 j hj with h | h
    · exact absurd h (List.not_mem_nil j)
    · exact h
  · intro r hr
    rcases F12 r hr with h | h
    · exact absurd h (List.not_mem_nil r)
    · exact h

theorem loopFuel_done (p : Ctx) (n : ℕ) :
    ∀ (fuel : ℕ) (st : St), (∀ j ∈ st.indices, j < n) →
      measureSt n st + (if st.removed = 0 ∧ st.offset = 0 then 0 else 1) ≤ fuel →
      (loopFuel p fuel st).removed = 0 ∧ (loopFuel p fuel st).offset = 0 := by
  intro fuel
  induction fuel with
  | zero =>
      intro st hwf hM
      by_cases hd : st.removed = 0 ∧ st.offset = 0
      · simpa [loopFuel] using hd
      · rw [if_neg hd] at hM; omega
  | succ f ih =>
      intro st hwf hM
      by_cases hd : st.removed = 0 ∧ st.offset = 0
      · rw [loopFuel, if_pos hd]; exact hd
      · rw [loopFuel, if_neg hd]
        obtain ⟨-, -, hle, hlt, hsub, -, -, -⟩ := runPass_spec p n st
        apply ih (runPass p st)
        · intro j hj; exact hwf j (hsub j hj)
        · rw [if_neg hd] at hM
          by_cases hd2 : (runPass p st).removed = 0 ∧ (runPass p st).offset = 0
          · rw [if_pos hd2]
            have := hle hwf
            omega
          · rw [if_neg hd2]
            have := hlt hwf hd2
            omega

/-! ### Top-level plumbing -/

theorem fba_ok (lb ub : List ℚ) (S : List (List ℚ)) (c : List ℚ)
    (O : FbaLP → Option (Vec × ℚ))
    (h1 : lb.length = cols S) (h2 : ub.length = cols S) (h3 : c.length = cols S) :
    ∃ pr : Vec × ℚ, fba lb ub S c O = Except.ok pr := by
  unfold fba
  rw [if_neg (by simp [h1, h2]), if_neg (by simp [h3])]
  cases hO : O ⟨lb, ub, S, c⟩ with
  | none => exact ⟨_, rfl⟩
  | some pr => exact ⟨_, rfl⟩

theorem rrfFinalState_ok (lb ub : List ℚ) (S : List (List ℚ)) (c : List ℚ)
    (optP : ℚ) (fbaO : FbaLP → Option (Vec × ℚ)) (O : LPDescr → Option ℚ)
    (h1 : lb.length = cols S) (h2 : ub.length = cols S) (h3 : c.length = cols S) :
    ∃ maxObj : ℚ, rrfFinalState lb ub S c optP fbaO O =
      Except.ok (loopFuel (mkParams lb ub c optP O maxObj) (3 * cols S + 1)
        (initSt lb ub S (cols S))) := by
  unfold rrfFinalState
  rw [if_neg (by simp [h1, h2])]
  obtain ⟨pr, hpr⟩ := fba_ok lb ub S c fbaO h1 h2 h3
  rw [hpr]
  exact ⟨pr.2, rfl⟩

theorem initSt_wf (lb ub : List ℚ) (S : List (List ℚ)) (n : ℕ) :
    ∀ j ∈ (initSt lb ub S n).indices, j < n := by
  intro j hj
  have h : (initSt lb ub S n).indices = List.range n := rfl
  rw [h] at hj
  exact List.mem_range.mp hj

theorem measure_initSt (lb ub : List ℚ) (S : List (List ℚ)) (n : ℕ) :
    measureSt n (initSt lb ub S n) = 3 * n := by
  have h1 : (initSt lb ub S n).fleft = fun _ => false := rfl
  have h2 : (initSt lb ub S n).fright = fun _ => false := rfl
  have h3 : (initSt lb ub S n).indices = List.range n := rfl
  unfold measureSt unsetCnt
  rw [h1, h2, h3, List.length_range]
  have hc : cntF n (fun _ => false) = n := by
    unfold cntF
    rw [Finset.filter_true_of_mem (fun x _ => rfl)]
    exact Finset.card_range n
  rw [hc]
  omega

/-! ### Claim theorems -/

/-- C2: for every input satisfying the dimension preconditions and every total
LP oracle, the facet-elimination loop of `remove_redundant_facets` reaches the
exit condition `removed == 0 and offset == 0` within the `3n+1` passes its
budget allows: each `removed` increment marks a fresh side flag, each `offset`
increment (and each drop) permanently shrinks the undecided set, so the
measure `unsetCnt + |indices|` strictly decreases on every productive pass. -/
theorem c2_loop_terminates (lb ub : List ℚ) (S : List (List ℚ)) (c : List ℚ)
    (optP : ℚ) (fbaO : FbaLP → Option (Vec × ℚ)) (O : LPDescr → Option ℚ)
    (h1 : lb.length = cols S) (h2 : ub.length = cols S) (h3 : c.length = cols S) :
    ∃ st : St, rrfFinalState lb ub S c optP fbaO O = Except.ok st ∧
      st.removed = 0 ∧ st.offset = 0 := by
  obtain ⟨maxObj, hok⟩ := rrfFinalState_ok lb ub S c optP fbaO O h1 h2 h3
  refine ⟨_, hok, ?_⟩
  apply loopFuel_done (mkParams lb ub c optP O maxObj) (cols S) (3 * cols S + 1)
    (initSt lb ub S (cols S)) (initSt_wf lb ub S (cols S))
  have hrem : (initSt lb ub S (cols S)).removed = 1 := rfl
  have hcond : ¬((initSt lb ub S (cols S)).removed = 0 ∧
      (initSt lb ub S (cols S)).offset = 0) := by
    rintro ⟨h, -⟩
    rw [hrem] at h
    exact one_ne_zero h
  rw [measure_initSt, if_neg hcond]

/-- C2 witness: a concrete one-reaction network with the everywhere-infeasible
oracle terminates with `removed = 0` and `offset = 0`. -/
theorem c2_loop_terminates_witness :
    ∃ st : St, rrfFinalState [0] [1] [[0]] [1] 100 (fun _ => none) (fun _ => none) =
      Except.ok st ∧ st.removed = 0 ∧ st.offset = 0 :=
  c2_loop_terminates [0] [1] [[0]] [1] 100 (fun _ => none) (fun _ => none) rfl rfl rfl

/-- C7: a dimension mismatch in `lb`, `ub` or `c` makes the reducer fail with
an exception whose message does not depend on either oracle (so no LP solve
contributed to it), and with matching dimensions no exception is raised. -/
theorem c7_dimension_mismatch (lb ub : List ℚ) (S : List (List ℚ)) (c : List ℚ)
    (optP : ℚ) :
    ((lb.length ≠ cols S ∨ ub.length ≠ cols S ∨ c.length ≠ cols S) →
      ∃ msg : String, ∀ (fbaO : FbaLP → Option (Vec × ℚ)) (O : LPDescr → Option ℚ),
        remove_redundant_facets lb ub S c optP fbaO O = Except.error msg) ∧
    (lb.length = cols S → ub.length = cols S → c.length = cols S →
      ∀ (fbaO : FbaLP → Option (Vec × ℚ)) (O : LPDescr → Option ℚ),
        ∃ res, remove_redundant_facets lb ub S c optP fbaO O = Except.ok res) := by
  constructor
  · intro hmis
    by_cases hlu : lb.length ≠ cols S ∨ ub.length ≠ cols S
    · refine ⟨"The number of reactions must be equal to the number of given flux bounds.", ?_⟩
      intro fbaO O
      unfold remove_redundant_facets rrfFinalState
      rw [if_pos hlu]
      rfl
    · push_neg at hlu
      have hc : c.length ≠ cols S := by
        rcases hmis with h | h | h
        · exact absurd hlu.1 h
        · exact absurd hlu.2 h
        · exact h
      refine ⟨"The length of the lineart objective function must be equal to the number of reactions.", ?_⟩
      intro fbaO O
      unfold remove_redundant_facets rrfFinalState fba
      rw [if_neg (by simp [hlu.1, hlu.2]), if_neg (by simp [hlu.1, hlu.2]), if_pos hc]
      rfl
  · intro h1 h2 h3 fbaO O
    obtain ⟨maxObj, hok⟩ := rrfFinalState_ok lb ub S c optP fbaO O h1 h2 h3
    exact ⟨_, by unfold remove_redundant_facets; rw [hok]; rfl⟩

/-- C7 witness: a concrete mismatched input errors under every oracle, and a
concrete well-formed input succeeds. -/
theorem c7_dimension_mismatch_witness :
    (∃ msg : String, ∀ (fbaO : FbaLP → Option (Vec × ℚ)) (O : LPDescr → Option ℚ),
      remove_redundant_facets [0, 0] [1] [[0]] [1] 100 fbaO O = Except.error msg) ∧
    (∃ res, remove_redundant_facets [0] [1] [[0]] [1] 100 (fun _ => none) (fun _ => none) =
      Except.ok res) :=
  ⟨(c7_dimension_mismatch [0, 0] [1] [[0]] [1] 100).1 (Or.inl (by decide)),
   (c7_dimension_mismatch [0] [1] [[0]] [1] 100).2 rfl rfl rfl (fun _ => none) (fun _ => none)⟩

/-- C3: a non-optimal status on the `max x_i` (resp. `min x_i`) solve makes the
algorithm substitute the static bound `ub[i]` (resp. `lb[i]`) and continue, and
oracle-reported infeasibility never surfaces: with any oracle whatsoever the
reducer still returns a result rather than an exception. -/
theorem c3_infeasible_fallback :
    (∀ (ctx : Ctx) (lb ub : Vec) (i : ℕ),
      ctx.oracle (set_model lb ub ctx.Aeq ctx.beq [ctx.negc] [ctx.val] (negE i)) = none →
      computeMax ctx lb ub i = ub i) ∧
    (∀ (ctx : Ctx) (lb ub : Vec) (i : ℕ),
      ctx.oracle (set_model lb ub ctx.Aeq ctx.beq [ctx.negc] [ctx.val] (eVec i)) = none →
      computeMin ctx lb ub i = lb i) ∧
    (∀ (lb ub : List ℚ) (S : List (List ℚ)) (c : List ℚ) (optP : ℚ)
      (fbaO : FbaLP → Option (Vec × ℚ)) (O : LPDescr → Option ℚ),
      lb.length = cols S → ub.length = cols S → c.length = cols S →
      ∃ res, remove_redundant_facets lb ub S c optP fbaO O = Except.ok res) := by
  refine ⟨?_, ?_, ?_⟩
  · intro ctx lb ub i h
    unfold computeMax
    rw [h]
  · intro ctx lb ub i h
    unfold computeMin
    rw [h]
  · intro lb ub S c optP fbaO O h1 h2 h3
    obtain ⟨maxObj, hok⟩ := rrfFinalState_ok lb ub S c optP fbaO O h1 h2 h3
    exact ⟨_, by unfold remove_redundant_facets; rw [hok]; rfl⟩

/-- C3 witness: with the everywhere-infeasible oracle the max fallback is
`ub i`, the min fallback is `lb i`, and the reducer still returns `ok`. -/
theorem c3_infeasible_fallback_witness :
    computeMax ⟨fun _ => none, fun _ => 0, 0, fun _ => 0, fun _ => 7, [], []⟩
      (fun _ => 0) (fun _ => 7) 0 = 7 ∧
    computeMin ⟨fun _ => none, fun _ => 0, 0, fun _ => 5, fun _ => 0, [], []⟩
      (fun _ => 5) (fun _ => 0) 0 = 5 ∧
    (∃ res, remove_redundant_facets [0] [1] [[0]] [1] 100 (fun _ => none) (fun _ => none) =
      Except.ok res) :=
  ⟨c3_infeasible_fallback.1 _ (fun _ => 0) (fun _ => 7) 0 rfl,
   c3_infeasible_fallback.2.1 _ (fun _ => 5) (fun _ => 0) 0 rfl,
   c3_infeasible_fallback.2.2 [0] [1] [[0]] [1] 100 (fun _ => none) (fun _ => none) rfl rfl rfl⟩

/-- C9: when the single FBA solve reports a non-optimal status, `fba` raises no
exception and returns the pre-initialised defaults: the zero vector and 0. -/
theorem c9_fba_default (lb ub : List ℚ) (S : List (List ℚ)) (c : List ℚ)
    (O : FbaLP → Option (Vec × ℚ))
    (h1 : lb.length = cols S) (h2 : ub.length = cols S) (h3 : c.length = cols S)
    (hO : O ⟨lb, ub, S, c⟩ = none) :
    fba lb ub S c O = Except.ok (fun _ => 0, 0) := by
  unfold fba
  rw [if_neg (by simp [h1, h2]), if_neg (by simp [h3]), hO]

/-- C9 witness: a concrete failing solve yields the zero defaults. -/
theorem c9_fba_default_witness :
    fba [0] [1] [[0]] [1] (fun _ => none) = Except.ok (fun _ => 0, 0) :=
  c9_fba_default [0] [1] [[0]] [1] (fun _ => none) rfl rfl rfl rfl

/-- C1: for a side not yet marked redundant, when the relaxed solve is optimal
the side is classified redundant exactly when the gap between the relaxed and
the original optimum is at most `redundant_facet_tol` (so a gap equal to the
tolerance is redundant, and the side survives only for a strictly larger gap);
classification sets the flag and bumps `removed`. -/
theorem c1_tolerance_boundary :
    (∀ (ctx : Ctx) (lb ub : Vec) (f : ℕ → Bool) (r i : ℕ) (mo z2 : ℚ),
      f i = false →
      ctx.oracle (set_model lb (Function.update ub i (ub i + 1)) ctx.Aeq ctx.beq
        [ctx.negc] [ctx.val] (negE i)) = some z2 →
      rightCheck ctx lb ub f r i mo =
        if |(-z2) - mo| ≤ redundant_facet_tol then (true, Function.update f i true, r + 1)
        else (false, f, r)) ∧
    (∀ (ctx : Ctx) (lb ub : Vec) (f : ℕ → Bool) (r i : ℕ) (mo z2 : ℚ),
      f i = false →
      ctx.oracle (set_model (Function.update lb i (lb i - 1)) ub ctx.Aeq ctx.beq
        [ctx.negc] [ctx.val] (eVec i)) = some z2 →
      leftCheck ctx lb ub f r i mo =
        if |z2 - mo| ≤ redundant_facet_tol then (true, Function.update f i true, r + 1)
        else (false, f, r)) := by
  constructor
  · intro ctx lb ub f r i mo z2 hf hoc
    unfold rightCheck
    rw [if_neg (by simp [hf]), hoc]
    dsimp only
    by_cases hg : redundant_facet_tol < |(-z2) - mo|
    · rw [if_pos hg, if_neg (not_le.mpr hg)]
    · rw [if_neg hg, if_pos (not_lt.mp hg)]
  · intro ctx lb ub f r i mo z2 hf hoc
    unfold leftCheck
    rw [if_neg (by simp [hf]), hoc]
    dsimp only
    by_cases hg : redundant_facet_tol < |z2 - mo|
    · rw [if_pos hg, if_neg (not_le.mpr hg)]
    · rw [if_neg hg, if_pos (not_lt.mp hg)]

/-- C1 witness: a gap exactly equal to the tolerance marks the right side
redundant, and a gap of twice the tolerance leaves the left side active. -/
theorem c1_tolerance_boundary_witness :
    rightCheck ⟨fun _ => some (-(3 + redundant_facet_tol)), fun _ => 0, 0,
        fun _ => 0, fun _ => 0, [], []⟩ (fun _ => 0) (fun _ => 0) (fun _ => false) 0 0 3 =
      (true, Function.update (fun _ => false) 0 true, 1) ∧
    leftCheck ⟨fun _ => some (5 + 2 * redundant_facet_tol), fun _ => 0, 0,
        fun _ => 0, fun _ => 0, [], []⟩ (fun _ => 0) (fun _ => 0) (fun _ => false) 0 0 5 =
      (false, fun _ => false, 0) := by
  constructor
  · have h := c1_tolerance_boundary.1
      ⟨fun _ => some (-(3 + redundant_facet_tol)), fun _ => 0, 0, fun _ => 0, fun _ => 0, [], []⟩
      (fun _ => 0) (fun _ => 0) (fun _ => false) 0 0 3 (-(3 + redundant_facet_tol)) rfl rfl
    have hcond : |(-(-(3 + redundant_facet_tol))) - 3| ≤ redundant_facet_tol := by
      have e : -(-(3 + redundant_facet_tol)) - 3 = redundant_facet_tol := by ring
      rw [e]
      exact le_of_eq (abs_of_pos (by norm_num [redundant_facet_tol]))
    rw [h, if_pos hcond]
  · have h := c1_tolerance_boundary.2
      ⟨fun _ => some (5 + 2 * redundant_facet_tol), fun _ => 0, 0, fun _ => 0, fun _ => 0, [], []⟩
      (fun _ => 0) (fun _ => 0) (fun _ => false) 0 0 5 (5 + 2 * redundant_facet_tol) rfl rfl
    have hcond : ¬(|5 + 2 * redundant_facet_tol - 5| ≤ redundant_facet_tol) := by
      have e : 5 + 2 * redundant_facet_tol - 5 = 2 * redundant_facet_tol := by ring
      rw [e, abs_of_pos (show (0 : ℚ) < 2 * redundant_facet_tol by norm_num [redundant_facet_tol])]
      norm_num [redundant_facet_tol]
    rw [h, if_neg hcond]

/-- C4: for a coordinate with at least one non-redundant side, a width below
`redundant_facet_tol` appends exactly the `i`-th standard-basis equality row
with right-hand side `min(max_objective, min_objective)`, releases both bounds
to the float extremes, bumps `offset` and leaves the coordinate out of the next
pass; otherwise the coordinate is queued again and one inequality row per
non-redundant side is emitted, redundant sides having their bound released. -/
theorem c4_width_collapse (ctx : Ctx) (s : St) (i : ℕ) (rl rr : Bool) (mo mi : ℚ)
    (hred : rl = false ∨ rr = false) :
    (|mo - mi| < redundant_facet_tol →
      (finishCoord ctx s i rl rr mo mi).Aeq_res = s.Aeq_res ++ [eVec i] ∧
      (finishCoord ctx s i rl rr mo mi).beq_res = s.beq_res ++ [min mo mi] ∧
      (finishCoord ctx s i rl rr mo mi).ub = Function.update s.ub i FMAX ∧
      (finishCoord ctx s i rl rr mo mi).lb = Function.update s.lb i (-FMAX) ∧
      (finishCoord ctx s i rl rr mo mi).indices = s.indices ∧
      (finishCoord ctx s i rl rr mo mi).offset = s.offset + 1 ∧
      (finishCoord ctx s i rl rr mo mi).A_res = s.A_res) ∧
    (¬(|mo - mi| < redundant_facet_tol) →
      (finishCoord ctx s i rl rr mo mi).indices = s.indices ++ [i] ∧
      (finishCoord ctx s i rl rr mo mi).Aeq_res = s.Aeq_res ∧
      (finishCoord ctx s i rl rr mo mi).beq_res = s.beq_res ∧
      (finishCoord ctx s i rl rr mo mi).offset = s.offset ∧
      (finishCoord ctx s i rl rr mo mi).A_res =
        s.A_res ++ (if rl = false then [negE i] else [])
                ++ (if rr = false then [eVec i] else []) ∧
      (finishCoord ctx s i rl rr mo mi).b_res =
        s.b_res ++ (if rl = false then [-(ctx.lb0 i)] else [])
               ++ (if rr = false then [ctx.ub0 i] else []) ∧
      (finishCoord ctx s i rl rr mo mi).lb =
        (if rl = false then s.lb else Function.update s.lb i (-FMAX)) ∧
      (finishCoord ctx s i rl rr mo mi).ub =
        (if rr = false then s.ub else Function.update s.ub i FMAX)) := by
  constructor
  · intro hw
    unfold finishCoord
    rw [if_pos hred, if_pos hw]
    exact ⟨rfl, rfl, rfl, rfl, rfl, rfl, rfl⟩
  · intro hw
    unfold finishCoord
    rw [if_pos hred, if_neg hw]
    exact ⟨rfl, rfl, rfl, rfl, rfl, rfl, rfl, rfl⟩

/-- C4 witness: a concrete zero-width coordinate is converted to the basis
equality row with both bounds released. -/
theorem c4_width_collapse_witness :
    (finishCoord ctxW stW 0 false true 0 0).Aeq_res = stW.Aeq_res ++ [eVec 0] ∧
    (finishCoord ctxW stW 0 false true 0 0).beq_res = stW.beq_res ++ [min 0 0] ∧
    (finishCoord ctxW stW 0 false true 0 0).ub = Function.update stW.ub 0 FMAX ∧
    (finishCoord ctxW stW 0 false true 0 0).lb = Function.update stW.lb 0 (-FMAX) ∧
    (finishCoord ctxW stW 0 false true 0 0).indices = stW.indices ∧
    (finishCoord ctxW stW 0 false true 0 0).offset = stW.offset + 1 ∧
    (finishCoord ctxW stW 0 false true 0 0).A_res = stW.A_res :=
  (c4_width_collapse ctxW stW 0 false true 0 0 (Or.inl rfl)).1
    (by norm_num [redundant_facet_tol])

/-- C5: `fva` and `remove_redundant_facets` derive the same cutoff
`floor(optimal_value / tol) * tol * opt_percentage / 100` from the FBA
optimum; the reducer stores its negation as `val` together with the row `-c`,
and satisfying `(-c)·x ≤ -cutoff` is equivalent to `c·x ≥ cutoff`. -/
theorem c5_cutoff_value :
    (∀ maxObj optP : ℚ,
      fvaThreshold maxObj optP = (⌊maxObj / tol⌋ : ℚ) * tol * optP / 100) ∧
    (∀ maxObj optP : ℚ, rrfVal maxObj optP = -(fvaThreshold maxObj optP)) ∧
    (∀ (lb ub c : List ℚ) (optP : ℚ) (O : LPDescr → Option ℚ) (maxObj : ℚ),
      (mkParams lb ub c optP O maxObj).val = rrfVal maxObj optP ∧
      (mkParams lb ub c optP O maxObj).negc = fun j => -(c.getD j 0)) ∧
    (∀ (ctx : Ctx) (obj lb ub : Vec),
      (set_model lb ub ctx.Aeq ctx.beq [ctx.negc] [ctx.val] obj).A = [ctx.negc] ∧
      (set_model lb ub ctx.Aeq ctx.beq [ctx.negc] [ctx.val] obj).b = [ctx.val]) ∧
    (∀ (cf x : Vec) (n : ℕ) (θ : ℚ),
      dotProd (fun j => -(cf j)) x n ≤ -θ ↔ θ ≤ dotProd cf x n) := by
  refine ⟨?_, ?_, ?_, ?_, ?_⟩
  · intro maxObj optP
    unfold fvaThreshold
    ring
  · intro maxObj optP
    unfold rrfVal fvaThreshold
    ring
  · intro lb ub c optP O maxObj
    exact ⟨rfl, rfl⟩
  · intro ctx obj lb ub
    exact ⟨rfl, rfl⟩
  · intro cf x n θ
    have h : dotProd (fun j => -(cf j)) x n = -(dotProd cf x n) := by
      unfold dotProd
      rw [← Finset.sum_neg_distrib]
      exact Finset.sum_congr rfl fun j _ => by ring
    rw [h]
    exact neg_le_neg_iff

/-- C10: `inner_ball` returns the centre-radius pair exactly when the computed
radius is non-negative; a negative radius yields `none` (Python `None`), not an
exception or an error code. -/
theorem c10_inner_ball_radius (A : List (List ℚ)) (b : List ℚ)
    (O : List (List ℚ) → List ℚ → Vec) :
    (O A b (cols A) < 0 → inner_ball A b O = none) ∧
    (0 ≤ O A b (cols A) →
      inner_ball A b O = some ((List.range (cols A)).map (O A b), O A b (cols A))) := by
  constructor
  · intro h
    show (if O A b (cols A) < 0 then none
      else some ((List.range (cols A)).map (O A b), O A b (cols A))) = none
    rw [if_pos h]
  · intro h
    show (if O A b (cols A) < 0 then none
      else some ((List.range (cols A)).map (O A b), O A b (cols A))) = _
    rw [if_neg (not_lt.mpr h)]

/-- C10 witness: a solver assignment with radius `-1` yields `none`, one with
radius `1` yields the centre-radius pair. -/
theorem c10_inner_ball_radius_witness :
    inner_ball [[(1 : ℚ)]] [1] (fun _ _ _ => -1) = none ∧
    inner_ball [[(1 : ℚ)]] [1] (fun _ _ _ => 1) = some ([1], 1) := by
  constructor
  · exact (c10_inner_ball_radius [[1]] [1] (fun _ _ _ => -1)).1 (by norm_num)
  · have h := (c10_inner_ball_radius [[1]] [1] (fun _ _ _ => 1)).2 (by norm_num)
    rw [h]
    rfl

/-! ### C6 infrastructure: distinctness of basis rows and iterated passes -/

theorem basis_rows_ne {i j : ℕ} (h : j ≠ i) :
    eVec j ≠ eVec i ∧ eVec j ≠ negE i ∧ negE j ≠ eVec i ∧ negE j ≠ negE i := by
  have hij : ¬(i = j) := fun hh => h hh.symm
  have v1 : eVec j i = 0 := by unfold eVec; rw [if_neg hij]
  have v2 : negE j i = 0 := by unfold negE; rw [if_neg hij]
  have v3 : eVec i i = 1 := by unfold eVec; rw [if_pos rfl]
  have v4 : negE i i = -1 := by unfold negE; rw [if_pos rfl]
  refine ⟨fun he => ?_, fun he => ?_, fun he => ?_, fun he => ?_⟩
  · have hv := congrFun he i
    rw [v1, v3] at hv
    exact absurd hv (by norm_num)
  · have hv := congrFun he i
    rw [v1, v4] at hv
    exact absurd hv (by norm_num)
  · have hv := congrFun he i
    rw [v2, v3] at hv
    exact absurd hv (by norm_num)
  · have hv := congrFun he i
    rw [v2, v4] at hv
    exact absurd hv (by norm_num)

theorem iterate_notIn (p : Ctx) (i : ℕ) :
    ∀ (d : ℕ) (st : St), i ∉ st.indices → i ∉ ((runPass p)^[d] st).indices := by
  intro d
  induction d with
  | zero => intro st h; simpa using h
  | succ e ih =>
      intro st h
      rw [Function.iterate_succ_apply']
      intro hmem
      obtain ⟨-, -, -, -, hsub, -, -, -⟩ := runPass_spec p 0 ((runPass p)^[e] st)
      exact ih st h (hsub i hmem)

theorem iterate_fright (p : Ctx) (i : ℕ) :
    ∀ (d : ℕ) (st : St), st.fright i = true → ((runPass p)^[d] st).fright i = true := by
  intro d
  induction d with
  | zero => intro st h; simpa using h
  | succ e ih =>
      intro st h
      rw [Function.iterate_succ_apply']
      obtain ⟨-, hfr, -, -, -, -, -, -⟩ := runPass_spec p 0 ((runPass p)^[e] st)
      exact hfr i (ih st h)

theorem iterate_fleft (p : Ctx) (i : ℕ) :
    ∀ (d : ℕ) (st : St), st.fleft i = true → ((runPass p)^[d] st).fleft i = true := by
  intro d
  induction d with
  | zero => intro st h; simpa using h
  | succ e ih =>
      intro st h
      rw [Function.iterate_succ_apply']
      obtain ⟨hfl, -, -, -, -, -, -, -⟩ := runPass_spec p 0 ((runPass p)^[e] st)
      exact hfl i (ih st h)

/-- C6: across the passes of the reducer, `beq_res` only ever grows (so its
length is non-decreasing); a coordinate absent from the undecided set — in
particular one converted to an equality — never re-enters it and contributes
no `±e_i` row to `A_res` of any later pass; and a side flag once set is never
cleared. -/
theorem c6_monotonicity (p : Ctx) (st : St) (k d : ℕ) (i : ℕ) :
    ((runPass p)^[k] st).beq_res.length ≤ ((runPass p)^[k + 1] st).beq_res.length ∧
    (i ∉ ((runPass p)^[k] st).indices → i ∉ ((runPass p)^[k + d] st).indices) ∧
    (i ∉ ((runPass p)^[k] st).indices → 1 ≤ d →
      ∀ r ∈ ((runPass p)^[k + d] st).A_res, r ≠ eVec i ∧ r ≠ negE i) ∧
    (((runPass p)^[k] st).fright i = true → ((runPass p)^[k + d] st).fright i = true) ∧
    (((runPass p)^[k] st).fleft i = true → ((runPass p)^[k + d] st).fleft i = true) := by
  have hadd : ∀ m : ℕ, (runPass p)^[k + m] st = (runPass p)^[m] ((runPass p)^[k] st) := by
    intro m
    rw [Nat.add_comm, Function.iterate_add_apply]
  refine ⟨?_, ?_, ?_, ?_, ?_⟩
  · obtain ⟨-, -, -, -, -, ⟨u, hu⟩, -, -⟩ := runPass_spec p 0 ((runPass p)^[k] st)
    have e : (runPass p)^[k + 1] st = runPass p ((runPass p)^[k] st) := by
      rw [hadd 1]
      rfl
    rw [e, hu, List.length_append]
    omega
  · intro h
    rw [hadd d]
    exact iterate_notIn p i d ((runPass p)^[k] st) h
  · intro h hd r
    rcases d with _ | e
    · omega
    · have hT : i ∉ ((runPass p)^[k + e] st).indices := by
        rw [hadd e]
        exact iterate_notIn p i e ((runPass p)^[k] st) h
      have e2 : (runPass p)^[k + (e + 1)] st = runPass p ((runPass p)^[k + e] st) :=
        Function.iterate_succ_apply' (runPass p) (k + e) st
      rw [e2]
      intro hr
      obtain ⟨-, -, -, -, -, -, -, hrows⟩ := runPass_spec p 0 ((runPass p)^[k + e] st)
      obtain ⟨j, hj, hcase⟩ := hrows r hr
      have hji : j ≠ i := fun hh => hT (hh ▸ hj)
      obtain ⟨n1, n2, n3, n4⟩ := basis_rows_ne hji
      rcases hcase with rfl | rfl
      · exact ⟨n1, n2⟩
      · exact ⟨n3, n4⟩
  · intro h
    rw [hadd d]
    exact iterate_fright p i d ((runPass p)^[k] st) h
  · intro h
    rw [hadd d]
    exact iterate_fleft p i d ((runPass p)^[k] st) h

/-- C6 witness: with the trivial oracle and an empty undecided set, coordinate
0 stays out of the undecided set, the next pass emits no row for it, and both
set side flags persist. -/
theorem c6_monotonicity_witness :
    ((runPass ctxW)^[0] stW2).beq_res.length ≤ ((runPass ctxW)^[0 + 1] stW2).beq_res.length ∧
    (0 ∉ ((runPass ctxW)^[0 + 1] stW2).indices) ∧
    (∀ r ∈ ((runPass ctxW)^[0 + 1] stW2).A_res, r ≠ eVec 0 ∧ r ≠ negE 0) ∧
    ((runPass ctxW)^[0 + 1] stW2).fright 0 = true ∧
    ((runPass ctxW)^[0 + 1] stW2).fleft 0 = true := by
  have h := c6_monotonicity ctxW stW2 0 1 0
  have hnot : (0 : ℕ) ∉ ((runPass ctxW)^[0] stW2).indices := List.not_mem_nil 0
  exact ⟨h.1, h.2.1 hnot, fun r hr => h.2.2.1 hnot (le_refl 1) r hr,
    h.2.2.2.1 rfl, h.2.2.2.2 rfl⟩

/-! ### C8 infrastructure: the bound vectors track the side flags -/

theorem procIndex_main (ctx : Ctx) (s : St) (i : ℕ) :
    ∃ rc lc : Bool × (ℕ → Bool) × ℕ,
      rc = rightCheck ctx s.lb s.ub s.fright s.removed i (computeMax ctx s.lb s.ub i) ∧
      lc = leftCheck ctx s.lb s.ub s.fleft rc.2.2 i (computeMin ctx s.lb s.ub i) ∧
      procIndex ctx s i =
        finishCoord ctx { s with fright := rc.2.1, fleft := lc.2.1, removed := lc.2.2 } i
          lc.1 rc.1 (computeMax ctx s.lb s.ub i) (computeMin ctx s.lb s.ub i) :=
  ⟨_, _, rfl, rfl, rfl⟩

theorem finishCoord_lb_ub (ctx : Ctx) (s : St) (i : ℕ) (rl rr : Bool) (mo mi : ℚ)
    (j : ℕ) (h : j ≠ i) :
    (finishCoord ctx s i rl rr mo mi).lb j = s.lb j ∧
    (finishCoord ctx s i rl rr mo mi).ub j = s.ub j := by
  rcases finishCoord_cases ctx s i rl rr mo mi with ⟨_, he⟩ | ⟨_, _, he⟩ | ⟨_, _, he⟩ <;> rw [he]
  · exact ⟨Function.update_noteq h _ _, Function.update_noteq h _ _⟩
  · exact ⟨Function.update_noteq h _ _, Function.update_noteq h _ _⟩
  · constructor
    · show (if rl = false then s.lb else Function.update s.lb i (-FMAX)) j = s.lb j
      split
      · rfl
      · exact Function.update_noteq h _ _
    · show (if rr = false then s.ub else Function.update s.ub i FMAX) j = s.ub j
      split
      · rfl
      · exact Function.update_noteq h _ _

theorem procIndex_frame (ctx : Ctx) (s : St) (i j : ℕ) (h : j ≠ i) :
    (procIndex ctx s i).lb j = s.lb j ∧ (procIndex ctx s i).ub j = s.ub j ∧
    (procIndex ctx s i).fleft j = s.fleft j ∧ (procIndex ctx s i).fright j = s.fright j := by
  obtain ⟨rc, lc, hrc, hlc, heq⟩ := procIndex_main ctx s i
  have hR := rightCheck_step ctx s.lb s.ub s.fright s.removed i (computeMax ctx s.lb s.ub i)
  rw [← hrc] at hR
  have hL := leftCheck_step ctx s.lb s.ub s.fleft rc.2.2 i (computeMin ctx s.lb s.ub i)
  rw [← hlc] at hL
  rw [heq]
  have hb := finishCoord_lb_ub ctx
    { s with fright := rc.2.1, fleft := lc.2.1, removed := lc.2.2 } i lc.1 rc.1
    (computeMax ctx s.lb s.ub i) (computeMin ctx s.lb s.ub i) j h
  refine ⟨?_, ?_, ?_, ?_⟩
  · rw [hb.1]
  · rw [hb.2]
  · rw [finishCoord_fleft]
    show lc.2.1 j = s.fleft j
    rcases hL with ⟨h1, -⟩ | ⟨-, h1, -⟩
    · rw [h1]
    · rw [h1]
      exact Function.update_noteq h _ _
  · rw [finishCoord_fright]
    show rc.2.1 j = s.fright j
    rcases hR with ⟨h1, -⟩ | ⟨-, h1, -⟩
    · rw [h1]
    · rw [h1]
      exact Function.update_noteq h _ _

theorem procIndex_sideOK (ctx : Ctx) (s : St) (i : ℕ)
    (hsome : ∀ lp : LPDescr, (ctx.oracle lp).isSome = true)
    (hside : sideOK ctx.lb0 ctx.ub0 s i) :
    ((procIndex ctx s i).indices = s.indices ∧ droppedOK (procIndex ctx s i) i) ∨
    ((procIndex ctx s i).indices = s.indices ++ [i] ∧
      sideOK ctx.lb0 ctx.ub0 (procIndex ctx s i) i) := by
  obtain ⟨rc, lc, hrc, hlc, heq⟩ := procIndex_main ctx s i
  have hR2 : rc.2.1 i = rc.1 ∧ (rc.1 = false → s.ub i = ctx.ub0 i) := by
    cases hfri : s.fright i with
    | false =>
        obtain ⟨z2, hz2⟩ := Option.isSome_iff_exists.mp (hsome (set_model s.lb
          (Function.update s.ub i (s.ub i + 1)) ctx.Aeq ctx.beq [ctx.negc] [ctx.val] (negE i)))
        have hrcv : rc = if redundant_facet_tol < |(-z2) - computeMax ctx s.lb s.ub i| then
            (false, s.fright, s.removed)
          else (true, Function.update s.fright i true, s.removed + 1) := by
          rw [hrc]
          unfold rightCheck
          rw [if_neg (by simp [hfri]), hz2]
        by_cases hg : redundant_facet_tol < |(-z2) - computeMax ctx s.lb s.ub i|
        · rw [if_pos hg] at hrcv
          exact ⟨by rw [hrcv]; exact hfri, fun _ => hside.2.1 hfri⟩
        · rw [if_neg hg] at hrcv
          refine ⟨by rw [hrcv]; exact Function.update_same i true s.fright, fun hb => ?_⟩
          rw [hrcv] at hb
          exact Bool.noConfusion hb
    | true =>
        have hrcv : rc = (true, s.fright, s.removed) := by
          rw [hrc]
          unfold rightCheck
          rw [if_pos hfri]
        refine ⟨by rw [hrcv]; exact hfri, fun hb => ?_⟩
        rw [hrcv] at hb
        exact Bool.noConfusion hb
  have hL2 : lc.2.1 i = lc.1 ∧ (lc.1 = false → s.lb i = ctx.lb0 i) := by
    cases hfli : s.fleft i with
    | false =>
        obtain ⟨z2, hz2⟩ := Option.isSome_iff_exists.mp (hsome (set_model
          (Function.update s.lb i (s.lb i - 1)) s.ub ctx.Aeq ctx.beq [ctx.negc] [ctx.val] (eVec i)))
        have hlcv : lc = if redundant_facet_tol < |z2 - computeMin ctx s.lb s.ub i| then
            (false, s.fleft, rc.2.2)
          else (true, Function.update s.fleft i true, rc.2.2 + 1) := by
          rw [hlc]
          unfold leftCheck
          rw [if_neg (by simp [hfli]), hz2]
        by_cases hg : redundant_facet_tol < |z2 - computeMin ctx s.lb s.ub i|
        · rw [if_pos hg] at hlcv
          exact ⟨by rw [hlcv]; exact hfli, fun _ => hside.2.2.2 hfli⟩
        · rw [if_neg hg] at hlcv
          refine ⟨by rw [hlcv]; exact Function.update_same i true s.fleft, fun hb => ?_⟩
          rw [hlcv] at hb
          exact Bool.noConfusion hb
    | true =>
        have hlcv : lc = (true, s.fleft, rc.2.2) := by
          rw [hlc]
          unfold leftCheck
          rw [if_pos hfli]
        refine ⟨by rw [hlcv]; exact hfli, fun hb => ?_⟩
        rw [hlcv] at hb
        exact Bool.noConfusion hb
  rw [heq]
  rcases finishCoord_cases ctx { s with fright := rc.2.1, fleft := lc.2.1, removed := lc.2.2 }
      i lc.1 rc.1 (computeMax ctx s.lb s.ub i) (computeMin ctx s.lb s.ub i) with
    ⟨-, he⟩ | ⟨-, -, he⟩ | ⟨-, -, he⟩
  · rw [he]
    exact Or.inl ⟨rfl, Function.update_same i FMAX s.ub, Function.update_same i (-FMAX) s.lb⟩
  · rw [he]
    exact Or.inl ⟨rfl, Function.update_same i FMAX s.ub, Function.update_same i (-FMAX) s.lb⟩
  · rw [he]
    refine Or.inr ⟨rfl, ?_, ?_, ?_, ?_⟩
    · intro ht
      show (if rc.1 = false then s.ub else Function.update s.ub i FMAX) i = FMAX
      have hb : rc.1 = true := by rw [← hR2.1]; exact ht
      rw [if_neg (by simp [hb])]
      exact Function.update_same i FMAX s.ub
    · intro hf
      show (if rc.1 = false then s.ub else Function.update s.ub i FMAX) i = ctx.ub0 i
      have hb : rc.1 = false := by rw [← hR2.1]; exact hf
      rw [if_pos hb]
      exact hR2.2 hb
    · intro ht
      show (if lc.1 = false then s.lb else Function.update s.lb i (-FMAX)) i = -FMAX
      have hb : lc.1 = true := by rw [← hL2.1]; exact ht
      rw [if_neg (by simp [hb])]
      exact Function.update_same i (-FMAX) s.lb
    · intro hf
      show (if lc.1 = false then s.lb else Function.update s.lb i (-FMAX)) i = ctx.lb0 i
      have hb : lc.1 = false := by rw [← hL2.1]; exact hf
      rw [if_pos hb]
      exact hL2.2 hb

theorem foldl_inv8 (ctx : Ctx) (n : ℕ)
    (hsome : ∀ lp : LPDescr, (ctx.oracle lp).isSome = true) :
    ∀ (l : List ℕ) (s : St),
      l.Nodup →
      (∀ j ∈ s.indices, j ∉ l) →
      (∀ j ∈ l, sideOK ctx.lb0 ctx.ub0 s j) →
      (∀ j ∈ s.indices, sideOK ctx.lb0 ctx.ub0 s j) →
      (∀ j, j < n → j ∉ l → j ∉ s.indices → droppedOK s j) →
      s.indices.Nodup →
      ((∀ j ∈ (List.foldl (procIndex ctx) s l).indices,
          sideOK ctx.lb0 ctx.ub0 (List.foldl (procIndex ctx) s l) j) ∧
        (∀ j, j < n → j ∉ (List.foldl (procIndex ctx) s l).indices →
          droppedOK (List.foldl (procIndex ctx) s l) j) ∧
        (List.foldl (procIndex ctx) s l).indices.Nodup) := by
  intro l
  induction l with
  | nil =>
      intro s _ _ _ h4 h5 h6
      exact ⟨h4, fun j hj hnot => h5 j hj (List.not_mem_nil j) hnot, h6⟩
  | cons i l ih =>
      intro s hnd hdisj hpre hpost hdrop hsnd
      rw [List.foldl_cons]
      have hndl := (List.nodup_cons.mp hnd).2
      have hinl := (List.nodup_cons.mp hnd).1
      have hstep := procIndex_sideOK ctx s i hsome (hpre i (List.mem_cons_self i l))
      have htrans : ∀ j, j ≠ i → sideOK ctx.lb0 ctx.ub0 s j →
          sideOK ctx.lb0 ctx.ub0 (procIndex ctx s i) j := by
        intro j hne hsj
        obtain ⟨e1, e2, e3, e4⟩ := procIndex_frame ctx s i j hne
        exact ⟨fun h => by rw [e2]; exact hsj.1 (by rwa [e4] at h),
               fun h => by rw [e2]; exact hsj.2.1 (by rwa [e4] at h),
               fun h => by rw [e1]; exact hsj.2.2.1 (by rwa [e3] at h),
               fun h => by rw [e1]; exact hsj.2.2.2 (by rwa [e3] at h)⟩
      have hdropTrans : ∀ j, j ≠ i → droppedOK s j → droppedOK (procIndex ctx s i) j := by
        intro j hne hdj
        obtain ⟨e1, e2, -, -⟩ := procIndex_frame ctx s i j hne
        exact ⟨by rw [e2]; exact hdj.1, by rw [e1]; exact hdj.2⟩
      have hsup : ∀ j ∈ s.indices, j ∈ (procIndex ctx s i).indices := by
        intro j hj
        rcases hstep with ⟨hidx, -⟩ | ⟨hidx, -⟩
        · rw [hidx]; exact hj
        · rw [hidx]; exact List.mem_append_left _ hj
      apply ih (procIndex ctx s i) hndl
      · intro j hj
        rcases hstep with ⟨hidx, -⟩ | ⟨hidx, -⟩
        · rw [hidx] at hj
          exact fun hl => hdisj j hj (List.mem_cons_of_mem i hl)
        · rw [hidx] at hj
          rcases List.mem_append.mp hj with hj' | hj'
          · exact fun hl => hdisj j hj' (List.mem_cons_of_mem i hl)
          · rw [List.mem_singleton.mp hj']
            exact hinl
      · intro j hj
        have hne : j ≠ i := fun hh => hinl (hh ▸ hj)
        exact htrans j hne (hpre j (List.mem_cons_of_mem i hj))
      · intro j hj
        rcases hstep with ⟨hidx, -⟩ | ⟨hidx, hsideI⟩
        · rw [hidx] at hj
          have hne : j ≠ i := fun hh => hdisj j hj (hh ▸ List.mem_cons_self i l)
          exact htrans j hne (hpost j hj)
        · rw [hidx] at hj
          rcases List.mem_append.mp hj with hj' | hj'
          · have hne : j ≠ i := fun hh => hdisj j hj' (hh ▸ List.mem_cons_self i l)
            exact htrans j hne (hpost j hj')
          · rw [List.mem_singleton.mp hj']
            exact hsideI
      · intro j hjn hjl hnotin
        by_cases hji : j = i
        · subst hji
          rcases hstep with ⟨-, hdropped⟩ | ⟨hidx, -⟩
          · exact hdropped
          · exact absurd (hidx ▸ List.mem_append_right _ (List.mem_singleton_self j)) hnotin
        · have hjil : j ∉ i :: l := by
            intro hc
            rcases List.mem_cons.mp hc with hc' | hc'
            · exact hji hc'
            · exact hjl hc'
          have hns : j ∉ s.indices := fun hj => hnotin (hsup j hj)
          exact hdropTrans j hji (hdrop j hjn hjil hns)
      · rcases hstep with ⟨hidx, -⟩ | ⟨hidx, -⟩
        · rw [hidx]; exact hsnd
        · rw [hidx]
          refine List.nodup_append.mpr ⟨hsnd, List.nodup_singleton i, ?_⟩
          intro a ha hb
          rw [List.mem_singleton.mp hb] at ha
          exact hdisj i ha (List.mem_cons_self i l)

theorem runPass_inv8 (p : Ctx) (n : ℕ) (st : St)
    (hsome : ∀ lp : LPDescr, (p.oracle lp).isSome = true)
    (h1 : ∀ j ∈ st.indices, sideOK p.lb0 p.ub0 st j)
    (h2 : ∀ j, j < n → j ∉ st.indices → droppedOK st j)
    (h3 : st.indices.Nodup) :
    (∀ j ∈ (runPass p st).indices, sideOK p.lb0 p.ub0 (runPass p st) j) ∧
    (∀ j, j < n → j ∉ (runPass p st).indices → droppedOK (runPass p st) j) ∧
    (runPass p st).indices.Nodup := by
  unfold runPass
  exact foldl_inv8 { p with Aeq := st.Aeq_res, beq := st.beq_res } n hsome st.indices
    { st with removed := 0, offset := 0, indices := [], A_res := [], b_res := [] }
    h3 (fun j hj => absurd hj (List.not_mem_nil j)) h1
    (fun j hj => absurd hj (List.not_mem_nil j))
    (fun j hjn hst _ => h2 j hjn hst) List.nodup_nil

theorem loopFuel_inv8 (p : Ctx) (n : ℕ)
    (hsome : ∀ lp : LPDescr, (p.oracle lp).isSome = true) :
    ∀ (fuel : ℕ) (st : St),
      (∀ j ∈ st.indices, sideOK p.lb0 p.ub0 st j) →
      (∀ j, j < n → j ∉ st.indices → droppedOK st j) →
      st.indices.Nodup →
      ((∀ j ∈ (loopFuel p fuel st).indices, sideOK p.lb0 p.ub0 (loopFuel p fuel st) j) ∧
        (∀ j, j < n → j ∉ (loopFuel p fuel st).indices → droppedOK (loopFuel p fuel st) j)) := by
  intro fuel
  induction fuel with
  | zero =>
      intro st h1 h2 _
      exact ⟨h1, h2⟩
  | succ f ih =>
      intro st h1 h2 h3
      by_cases hd : st.removed = 0 ∧ st.offset = 0
      · rw [loopFuel, if_pos hd]
        exact ⟨h1, h2⟩
      · rw [loopFuel, if_neg hd]
        obtain ⟨g1, g2, g3⟩ := runPass_inv8 p n st hsome h1 h2 h3
        exact ih (runPass p st) g1 g2 g3

/-- C8: the reducer's working bound arrays (the caller's `lb`, `ub`, mutated in
place in Python, returned in the final state here) end up exactly tracking how
each coordinate was resolved: a coordinate dropped from the undecided set
(equality conversion or both sides redundant) has both entries overwritten with
`±sys.float_info.max`; a still-undecided coordinate has a side's entry
overwritten iff its removal flag is set, an unflagged side keeping its original
value.  Stated for oracles that report an optimum on every solve (for a true LP
oracle the relaxed re-solves are feasible whenever the base solves are). -/
theorem c8_bounds_inplace (lb ub : List ℚ) (S : List (List ℚ)) (c : List ℚ)
    (optP : ℚ) (fbaO : FbaLP → Option (Vec × ℚ)) (O : LPDescr → Option ℚ)
    (h1 : lb.length = cols S) (h2 : ub.length = cols S) (h3 : c.length = cols S)
    (hsome : ∀ lp : LPDescr, (O lp).isSome = true) :
    ∃ st : St, rrfFinalState lb ub S c optP fbaO O = Except.ok st ∧
      (∀ i, i < cols S → i ∉ st.indices → st.ub i = FMAX ∧ st.lb i = -FMAX) ∧
      (∀ i ∈ st.indices,
        (st.fright i = true → st.ub i = FMAX) ∧
        (st.fright i = false → st.ub i = ub.getD i 0) ∧
        (st.fleft i = true → st.lb i = -FMAX) ∧
        (st.fleft i = false → st.lb i = lb.getD i 0)) := by
  obtain ⟨maxObj, hok⟩ := rrfFinalState_ok lb ub S c optP fbaO O h1 h2 h3
  refine ⟨_, hok, ?_, ?_⟩
  all_goals
    have hinv := loopFuel_inv8 (mkParams lb ub c optP O maxObj) (cols S) hsome
      (3 * cols S + 1) (initSt lb ub S (cols S))
      (fun j _ => ⟨fun hc => Bool.noConfusion hc, fun _ => rfl,
        fun hc => Bool.noConfusion hc, fun _ => rfl⟩)
      (fun j hjn hnot => absurd (List.mem_range.mpr hjn) hnot)
      (List.nodup_range (cols S))
  · exact fun i hin hnot => hinv.2 i hin hnot
  · exact hinv.1

/-- C8 witness: on a concrete one-coordinate system with an always-optimal
oracle the final bound entries follow the flags and membership as claimed. -/
theorem c8_bounds_inplace_witness :
    ∃ st : St, rrfFinalState [0] [1] [[0]] [1] 100 (fun _ => some (fun _ => 0, 0))
        (fun _ => some 0) = Except.ok st ∧
      (∀ i, i < cols [[(0 : ℚ)]] → i ∉ st.indices → st.ub i = FMAX ∧ st.lb i = -FMAX) ∧
      (∀ i ∈ st.indices,
        (st.fright i = true → st.ub i = FMAX) ∧
        (st.fright i = false → st.ub i = List.getD [1] i 0) ∧
        (st.fleft i = true → st.lb i = -FMAX) ∧
        (st.fleft i = false → st.lb i = List.getD [0] i 0)) :=
  c8_bounds_inplace [0] [1] [[0]] [1] 100 (fun _ => some (fun _ => 0, 0)) (fun _ => some 0)
    rfl rfl rfl (fun _ => rfl)

end Dingo
